import Mathlib

/-!
# csum.c : sequential summation of doubles

A shallow embedding of `src/_snippets/csum.c`.

* `Double` with `Double.add` is the value domain of C's `double` and the meaning of
  `+` on it: IEEE-754 binary64 in the default rounding mode (to nearest, ties to
  even), every operation rounded to `double`. A finite number is carried by its bit
  pattern; its value is an integer multiple of `2 ^ (-1074)`, so sums are formed
  exactly in the integers and then rounded (`roundMag`). All NaN bit patterns are
  identified: payloads and the quiet bit are not tracked.
* `c_sum_loop`, `c_sum_exec`, `c_sum` embed the function `c_sum`: the `for` loop is
  a recursion over an explicit frame (`Frame`) holding the array the pointer `X`
  designates, the `size_t` index `i` (arithmetic modulo `2 ^ w`, `w` the width of
  `size_t`) and the accumulator `s`. An access outside the array is a fault.
* `main` embeds the program entry point, `fmt2f` the `%.2f` conversion of `printf`.

The theorems on the arithmetic come first (`roundMag_nearest` states that the
rounding is the IEEE one), then the loop, then the properties of the program.
-/

namespace CSum

/-! ## The value domain of `double` -/

/-- A binary64 value. `fin neg bits` is a finite number: `neg` is the sign bit and
`bits` the remaining 63 bits of the encoding (11 bits of biased exponent, then 52
bits of fraction), which for a finite number lie below `0x7FF0000000000000`.
`inf neg` is the infinity of that sign, `nan` stands for every NaN. -/
inductive Double where
  | nan : Double
  | inf (neg : Bool) : Double
  | fin (neg : Bool) (bits : Fin (2047 * 2 ^ 52)) : Double
  deriving DecidableEq, Repr

/-- Number of binary digits of `n`, by halving; the first argument bounds the
number of halvings. -/
def bitLengthAux : Nat → Nat → Nat
  | 0, _ => 0
  | fuel + 1, n => if n = 0 then 0 else bitLengthAux fuel (n / 2) + 1

/-- Number of binary digits of `n` (`0` for `0`). -/
def bitLength (n : Nat) : Nat := bitLengthAux n n

/-- Magnitude of the finite number with the 63-bit pattern `b`, as a multiple of
`2 ^ (-1074)` (the smallest positive double): with exponent field `e = b / 2 ^ 52`
and fraction `f = b % 2 ^ 52` it is `f` when `e = 0` (subnormal) and
`(2 ^ 52 + f) * 2 ^ (e - 1)` otherwise. -/
def mag (b : Nat) : Nat :=
  if b / 2 ^ 52 = 0 then b % 2 ^ 52
  else (2 ^ 52 + b % 2 ^ 52) * 2 ^ (b / 2 ^ 52 - 1)

/-- Round the magnitude `N` (a multiple of `2 ^ (-1074)`) to 53 significant bits,
to nearest with ties to even, and return the 63-bit pattern of the result.
`k` is the number of low bits dropped, `q` the kept significand and `r` the
dropped part. The pattern of significand `q` at shift `k` is
`(k + 1) * 2 ^ 52 + (q - 2 ^ 52)` when `q` has its leading bit (and `q` itself when
`k = 0`); rounding up adds one, and a carry out of the fraction moves into the
exponent field. A result at or above `2047 * 2 ^ 52` has overflowed. -/
def roundMag (N : Nat) : Nat :=
  let k := bitLength N - 53
  let q := N / 2 ^ k
  let r := N % 2 ^ k
  let up : Nat := if 2 ^ k < 2 * r ∨ (2 * r = 2 ^ k ∧ q % 2 = 1) then 1 else 0
  k * 2 ^ 52 + q + up

/-- The double of sign `neg` nearest to the magnitude `N`; infinity on overflow. -/
def ofMag (neg : Bool) (N : Nat) : Double :=
  if h : roundMag N < 2047 * 2 ^ 52 then .fin neg ⟨roundMag N, h⟩ else .inf neg

/-- Signed value of a finite number, as an integer multiple of `2 ^ (-1074)`. -/
def signedMag (neg : Bool) (b : Nat) : Int :=
  if neg then -(mag b : Int) else (mag b : Int)

/-- Positive zero, the constant `0.0`. -/
def posZero : Double := .fin false ⟨0, by decide⟩

/-- Negative zero, `-0.0`. -/
def negZero : Double := .fin true ⟨0, by decide⟩

/-- The operator `+` on `double`. A NaN operand gives NaN; infinities of opposite
sign give NaN; an infinity absorbs a finite operand. Two finite operands are added
exactly and the sum is rounded; an exact zero sum is `+0`, except that
`(-0) + (-0)` is `-0`. -/
def Double.add : Double → Double → Double
  | .nan, _ => .nan
  | _, .nan => .nan
  | .inf a, .inf b => if a = b then .inf a else .nan
  | .inf a, .fin _ _ => .inf a
  | .fin _ _, .inf b => .inf b
  | .fin sa a, .fin sb b =>
    let z : Int := signedMag sa a.val + signedMag sb b.val
    if z = 0 then .fin (sa && sb) ⟨0, by decide⟩
    else ofMag (decide (z < 0)) z.natAbs

/-- The double with sign bit `neg` and the 63 remaining bits `b`. -/
def ofBits (neg : Bool) (b : Nat) : Double :=
  if h : b < 2047 * 2 ^ 52 then .fin neg ⟨b, h⟩
  else if b = 2047 * 2 ^ 52 then .inf neg else .nan

/-- The number one is `2 ^ unitExp` multiples of `2 ^ (-1074)`. -/
def unitExp : Nat := 1074

/-- Conversion of an integer constant to `double` (as for the initialisers
`{1, 2, 3, 4, 5}`): the nearest double. -/
def ofInt (z : Int) : Double :=
  if z = 0 then posZero else ofMag (decide (z < 0)) (z.natAbs * 2 ^ unitExp)

/-! ## The function `c_sum` -/

/-- What stops a run of the embedding short of a result. -/
inductive Fault where
  | outOfBounds : Fault
  | outOfFuel : Fault
  deriving DecidableEq, Repr

instance instDecidableEqExcept {ε α : Type} [DecidableEq ε] [DecidableEq α] :
    DecidableEq (Except ε α)
  | .ok a, .ok b =>
    if h : a = b then isTrue (by rw [h]) else isFalse (fun h2 => h (Except.ok.inj h2))
  | .error a, .error b =>
    if h : a = b then isTrue (by rw [h]) else isFalse (fun h2 => h (Except.error.inj h2))
  | .ok _, .error _ => isFalse (fun h => Except.noConfusion h)
  | .error _, .ok _ => isFalse (fun h => Except.noConfusion h)

/-- The storage `c_sum` works on: the array `X` points to, the locals `i` and `s`,
and the list of indices at which `X` has been read so far (a record of the
execution, not a program variable). -/
structure Frame where
  X : List Double
  i : Nat
  s : Double
  reads : List Nat
  deriving DecidableEq, Repr

/-- The loop `for (...; i < n; ++i) { s += X[i]; }` from the frame `st`, with `w`
the width of `size_t`. Each unit of fuel pays for one evaluation of the test
`i < n`. Reading `X[i]` outside the array is a fault. -/
def c_sum_loop (w n : Nat) : Nat → Frame → Except Fault Frame
  | 0, _ => .error .outOfFuel
  | fuel + 1, st =>
    if st.i < n then
      match st.X[st.i]? with
      | none => .error .outOfBounds
      | some x =>
        c_sum_loop w n fuel
          { st with s := st.s.add x, i := (st.i + 1) % 2 ^ w, reads := st.reads ++ [st.i] }
    else .ok st

/-- The body of `c_sum` up to the `return`: `s = 0.0`, `i = 0`, then the loop. -/
def c_sum_exec (w n : Nat) (X : List Double) : Except Fault Frame :=
  c_sum_loop w n (n + 1) { X := X, i := 0, s := posZero, reads := [] }

/-- The function `double c_sum(size_t n, double *X)`: returns the final `s`. -/
def c_sum (w n : Nat) (X : List Double) : Except Fault Double :=
  (c_sum_exec w n X).map (fun st => st.s)

/-! ## The program entry point -/

/-- Two decimal digits of `c < 100`, with a leading zero. -/
def digits2 (c : Nat) : String :=
  (if c < 10 then "0" else "") ++ Nat.repr c

/-- The conversion `%.2f` of `printf`: the exact value is rounded to hundredths
(to nearest, ties to even) and written as integer part, point, two digits, after a
`-` when the sign bit is set. Infinities and NaN are written as glibc writes them
(the sign of a NaN is not tracked). -/
def fmt2f : Double → String
  | .nan => "nan"
  | .inf neg => (if neg then "-" else "") ++ "inf"
  | .fin neg b =>
    let h := mag b.val * 100
    let q := h / 2 ^ unitExp
    let r := h % 2 ^ unitExp
    let c := q + (if 2 ^ unitExp < 2 * r ∨ (2 * r = 2 ^ unitExp ∧ q % 2 = 1) then 1 else 0)
    (if neg then "-" else "") ++ Nat.repr (c / 100) ++ "." ++ digits2 (c % 100)

/-- What a run of the program leaves behind: the text written to standard output
and the exit status. -/
structure Outcome where
  stdout : String
  status : Int
  deriving DecidableEq, Repr

/-- The function `int main(void)`: the array `x`, `n = sizeof(x) / sizeof(x[0])`
(with `sizeof(double) = 8`, in `size_t` arithmetic), the call of `c_sum`, the
`printf` and `return 0`. -/
def main (w : Nat) : Except Fault Outcome :=
  let x : List Double := [ofInt 1, ofInt 2, ofInt 3, ofInt 4, ofInt 5]
  let n : Nat := (x.length * 8 / 8) % 2 ^ w
  match c_sum w n x with
  | .error e => .error e
  | .ok result => .ok { stdout := "C-computed Sum = " ++ fmt2f result ++ "\n", status := 0 }

/-! ## Vocabulary of the properties -/

/-- The exact value of a finite double as an integer multiple of `2 ^ (-1074)`;
`none` for infinities and NaN. -/
def Double.val? : Double → Option Int
  | .fin s b => some (signedMag s b.val)
  | _ => none

/-- Whether a double is NaN. -/
def Double.isNaN : Double → Bool
  | .nan => true
  | _ => false

/-- The exact (unrounded) sum of a list of finite doubles, in multiples of
`2 ^ (-1074)`; `none` when an element is not finite. -/
def exactSum : List Double → Option Int
  | [] => some 0
  | x :: t =>
    match x.val?, exactSum t with
    | some a, some b => some (a + b)
    | _, _ => none

/-- The integer `z` (in multiples of `2 ^ (-1074)`) is the value of a finite double:
rounding its magnitude stays finite and changes nothing. -/
def Representable (z : Int) : Prop :=
  roundMag z.natAbs < 2047 * 2 ^ 52 ∧ mag (roundMag z.natAbs) = z.natAbs

instance instDecidableRepresentable (z : Int) : Decidable (Representable z) :=
  inferInstanceAs (Decidable (_ ∧ _))

/-- The elements of `S` are finite and their exact sum is the value of a double. -/
def sumRepresentable (S : List Double) : Bool :=
  match exactSum S with
  | some z => decide (Representable z)
  | none => false

/-- The addition `x + y` of two finite doubles is finite and exact (no rounding). -/
def exactAdd (x y : Double) : Bool :=
  match x.val?, y.val?, (x.add y).val? with
  | some a, some b, some c => decide (c = a + b)
  | _, _, _ => false

/-- Every addition of the left fold of `l` from the accumulator `acc` is exact. -/
def stepsExact : Double → List Double → Bool
  | _, [] => true
  | acc, x :: t => exactAdd acc x && stepsExact (acc.add x) t

/-- The double nearest to the integer `z` (in multiples of `2 ^ (-1074)`), a zero
being `+0`. -/
def ofExact (z : Int) : Double :=
  if z = 0 then posZero else ofMag (decide (z < 0)) z.natAbs

/-! ## Sanity of the arithmetic on known values -/

/-- `1.0 + 2.0 = 3.0`. -/
theorem add_one_two :
    (ofBits false 0x3FF0000000000000).add (ofBits false 0x4000000000000000) =
      ofBits false 0x4008000000000000 := by decide!

/-- `0.1 + 0.2 = 0.30000000000000004`. -/
theorem add_tenth_fifth :
    (ofBits false 0x3FB999999999999A).add (ofBits false 0x3FC999999999999A) =
      ofBits false 0x3FD3333333333334 := by decide!

/-- `DBL_MAX + DBL_MAX` overflows to `+inf`, `DBL_MAX + 1.0 = DBL_MAX`. -/
theorem add_dbl_max :
    (ofBits false 0x7FEFFFFFFFFFFFFF).add (ofBits false 0x7FEFFFFFFFFFFFFF) = .inf false ∧
    (ofBits false 0x7FEFFFFFFFFFFFFF).add (ofBits false 0x3FF0000000000000) =
      ofBits false 0x7FEFFFFFFFFFFFFF := by decide!

/-- Ties go to even: `2^53 + 1.0 = 2^53` and `2^53 + 3.0 = 2^53 + 4`. -/
theorem add_ties_even :
    (ofBits false 0x4340000000000000).add (ofBits false 0x3FF0000000000000) =
      ofBits false 0x4340000000000000 ∧
    (ofBits false 0x4340000000000000).add (ofBits false 0x4008000000000000) =
      ofBits false 0x4340000000000002 := by decide!

/-- Subnormals add exactly; `1.5 + (-1.0) = 0.5`; `1.0 + (-1.0) = +0`. -/
theorem add_small :
    (ofBits false 1).add (ofBits false 1) = ofBits false 2 ∧
    (ofBits false 0x3FF8000000000000).add (ofBits true 0x3FF0000000000000) =
      ofBits false 0x3FE0000000000000 ∧
    (ofBits false 0x3FF0000000000000).add (ofBits true 0x3FF0000000000000) = posZero := by
  decide!

/-- The integer constants `1` and `15` convert to `1.0` and `15.0`; `%.2f` of some
values. -/
theorem fmt2f_samples :
    ofInt 1 = ofBits false 0x3FF0000000000000 ∧
    ofInt 15 = ofBits false 0x402E000000000000 ∧
    fmt2f (ofBits false 0x402E000000000000) = "15.00" ∧
    fmt2f (ofBits true 0x3FF8000000000000) = "-1.50" ∧
    fmt2f (ofBits false 0x3FB999999999999A) = "0.10" ∧
    fmt2f (ofBits false 0x3FC0000000000000) = "0.12" ∧
    fmt2f (ofBits false 0x3FD8000000000000) = "0.38" ∧
    fmt2f (ofBits false 0x40C3880000000000) = "10000.00" := by decide!

/-! ## Binary length -/

theorem bitLengthAux_zero (fuel : Nat) : bitLengthAux fuel 0 = 0 := by
  cases fuel <;> simp [bitLengthAux]

theorem bitLengthAux_spec :
    ∀ (fuel n : Nat), n ≤ fuel →
      n < 2 ^ bitLengthAux fuel n ∧ (n ≠ 0 → 2 ^ (bitLengthAux fuel n - 1) ≤ n) := by
  intro fuel
  induction fuel with
  | zero =>
    intro n hn
    have : n = 0 := by omega
    subst this
    simp [bitLengthAux]
  | succ fuel ih =>
    intro n hn
    by_cases h0 : n = 0
    · subst h0; simp [bitLengthAux]
    · have hhalf : n / 2 ≤ fuel := by omega
      obtain ⟨hlt, hge⟩ := ih (n / 2) hhalf
      simp only [bitLengthAux, if_neg h0, Nat.add_sub_cancel]
      refine ⟨?_, fun _ => ?_⟩
      · rw [Nat.pow_succ]; omega
      · by_cases hz : n / 2 = 0
        · rw [hz, bitLengthAux_zero]; simp; omega
        · have h1 := hge hz
          have hpos : bitLengthAux fuel (n / 2) ≠ 0 := by
            intro h; rw [h] at hlt; simp at hlt; exact hz hlt
          obtain ⟨L, hL⟩ := Nat.exists_eq_succ_of_ne_zero hpos
          rw [hL] at h1 ⊢
          simp only [Nat.succ_sub_one] at h1
          rw [Nat.pow_succ]; omega

theorem lt_two_pow_bitLength (n : Nat) : n < 2 ^ bitLength n :=
  (bitLengthAux_spec n n (Nat.le_refl n)).1

theorem two_pow_bitLength_le (n : Nat) (h : n ≠ 0) : 2 ^ (bitLength n - 1) ≤ n :=
  (bitLengthAux_spec n n (Nat.le_refl n)).2 h

theorem bitLength_le_of_lt (n L : Nat) (h : n < 2 ^ L) : bitLength n ≤ L := by
  by_cases h0 : n = 0
  · subst h0; simp [bitLength, bitLengthAux_zero]
  · have h1 := two_pow_bitLength_le n h0
    have h2 : 2 ^ (bitLength n - 1) < 2 ^ L := Nat.lt_of_le_of_lt h1 h
    have h3 := (Nat.pow_lt_pow_iff_right (by decide : 1 < 2)).1 h2
    omega

theorem bitLength_eq (n L : Nat) (h1 : 2 ^ L ≤ n) (h2 : n < 2 ^ (L + 1)) :
    bitLength n = L + 1 := by
  have hle := bitLength_le_of_lt n (L + 1) h2
  have h3 : 2 ^ L < 2 ^ bitLength n := Nat.lt_of_le_of_lt h1 (lt_two_pow_bitLength n)
  have h4 := (Nat.pow_lt_pow_iff_right (by decide : 1 < 2)).1 h3
  omega

/-! ## Rounding leaves a double unchanged -/

theorem roundMag_of_lt (N : Nat) (h : N < 2 ^ 53) : roundMag N = N := by
  have hk : bitLength N - 53 = 0 := by
    have := bitLength_le_of_lt N 53 h
    omega
  simp [roundMag, hk, Nat.mod_one]

theorem roundMag_mul_two_pow (m j : Nat) (h1 : 2 ^ 52 ≤ m) (h2 : m < 2 ^ 53) :
    roundMag (m * 2 ^ j) = j * 2 ^ 52 + m := by
  have hpos : 0 < 2 ^ j := Nat.two_pow_pos j
  have hlen : bitLength (m * 2 ^ j) = 52 + j + 1 := by
    apply bitLength_eq
    · rw [Nat.pow_add]; exact Nat.mul_le_mul_right _ h1
    · rw [show 52 + j + 1 = 53 + j by omega, Nat.pow_add]
      exact Nat.mul_lt_mul_of_pos_right h2 hpos
  have hk : bitLength (m * 2 ^ j) - 53 = j := by omega
  have hne : ¬ (0 = 2 ^ j) := by omega
  simp [roundMag, hk, Nat.mul_div_cancel _ hpos, Nat.mul_mod_left, hne]

theorem roundMag_mag (b : Nat) : roundMag (mag b) = b := by
  unfold mag
  by_cases he : b / 2 ^ 52 = 0
  · rw [if_pos he]
    have hb : b < 2 ^ 52 := by
      rcases Nat.lt_or_ge b (2 ^ 52) with h | h
      · exact h
      · have := Nat.div_pos h (by decide : 0 < 2 ^ 52)
        omega
    rw [Nat.mod_eq_of_lt hb]
    exact roundMag_of_lt b (by omega)
  · rw [if_neg he]
    have hf : b % 2 ^ 52 < 2 ^ 52 := Nat.mod_lt _ (by decide)
    rw [roundMag_mul_two_pow _ _ (by omega) (by omega)]
    have hdm := Nat.div_add_mod b (2 ^ 52)
    have hmul : (b / 2 ^ 52 - 1) * 2 ^ 52 + 2 ^ 52 = 2 ^ 52 * (b / 2 ^ 52) := by
      have h1 : 1 ≤ b / 2 ^ 52 := by omega
      calc (b / 2 ^ 52 - 1) * 2 ^ 52 + 2 ^ 52 = (b / 2 ^ 52 - 1 + 1) * 2 ^ 52 := by ring
        _ = (b / 2 ^ 52) * 2 ^ 52 := by rw [Nat.sub_add_cancel h1]
        _ = 2 ^ 52 * (b / 2 ^ 52) := by ring
    omega

theorem mag_eq_zero (b : Nat) (h : mag b = 0) : b = 0 := by
  have := roundMag_mag b
  rw [h] at this
  rw [← this]
  exact roundMag_of_lt 0 (by decide)

theorem ofMag_mag (s : Bool) (b : Fin (2047 * 2 ^ 52)) : ofMag s (mag b.val) = .fin s b := by
  unfold ofMag
  have h := roundMag_mag b.val
  have hlt : roundMag (mag b.val) < 2047 * 2 ^ 52 := by rw [h]; exact b.isLt
  rw [dif_pos hlt]
  congr 1
  exact Fin.ext h

theorem mag_pattern (m j : Nat) (h1 : 2 ^ 52 ≤ m) (h2 : m < 2 ^ 53) :
    mag (j * 2 ^ 52 + m) = m * 2 ^ j := by
  have hdiv : (j * 2 ^ 52 + m) / 2 ^ 52 = j + 1 := by omega
  have hmod : (j * 2 ^ 52 + m) % 2 ^ 52 = m - 2 ^ 52 := by omega
  unfold mag
  rw [hdiv, hmod, if_neg (by omega), Nat.add_sub_cancel, Nat.add_sub_of_le h1]

/-! ## Rounding is to nearest, ties to even -/

theorem mag_of_lt (b : Nat) (h : b < 2 ^ 53) : mag b = b := by
  unfold mag
  by_cases he : b / 2 ^ 52 = 0
  · rw [if_pos he]; omega
  · have he1 : b / 2 ^ 52 = 1 := by omega
    rw [if_neg he, he1]
    omega

theorem mag_decompose (b : Nat) (h : 2 ^ 52 ≤ b) :
    mag b = (2 ^ 52 + b % 2 ^ 52) * 2 ^ (b / 2 ^ 52 - 1) := by
  unfold mag
  rw [if_neg (by omega)]

theorem mag_strictMono (b c : Nat) (h : b < c) : mag b < mag c := by
  by_cases hc : c < 2 ^ 53
  · rw [mag_of_lt b (by omega), mag_of_lt c hc]; exact h
  · have hc52 : 2 ^ 52 ≤ c := by omega
    rw [mag_decompose c hc52]
    have hpc : 0 < 2 ^ (c / 2 ^ 52 - 1) := Nat.two_pow_pos _
    by_cases hb : b < 2 ^ 52
    · rw [mag_of_lt b (by omega)]
      calc b < 2 ^ 52 := hb
        _ ≤ 2 ^ 52 + c % 2 ^ 52 := Nat.le_add_right _ _
        _ ≤ (2 ^ 52 + c % 2 ^ 52) * 2 ^ (c / 2 ^ 52 - 1) := Nat.le_mul_of_pos_right _ hpc
    · rw [mag_decompose b (by omega)]
      have hdiv : b / 2 ^ 52 ≤ c / 2 ^ 52 := Nat.div_le_div_right (Nat.le_of_lt h)
      by_cases heq : b / 2 ^ 52 = c / 2 ^ 52
      · rw [heq]
        apply Nat.mul_lt_mul_of_pos_right _ hpc
        omega
      · have hlt : b / 2 ^ 52 - 1 + 1 ≤ c / 2 ^ 52 - 1 := by omega
        have hfb : b % 2 ^ 52 < 2 ^ 52 := Nat.mod_lt _ (by decide)
        calc (2 ^ 52 + b % 2 ^ 52) * 2 ^ (b / 2 ^ 52 - 1)
            < (2 ^ 52 * 2) * 2 ^ (b / 2 ^ 52 - 1) :=
              Nat.mul_lt_mul_of_pos_right (by omega) (Nat.two_pow_pos _)
          _ = 2 ^ 52 * 2 ^ (b / 2 ^ 52 - 1 + 1) := by
              rw [Nat.mul_assoc]; congr 1; exact (pow_succ' 2 _).symm
          _ ≤ 2 ^ 52 * 2 ^ (c / 2 ^ 52 - 1) :=
              Nat.mul_le_mul_left _ (Nat.pow_le_pow_right (by decide) hlt)
          _ ≤ (2 ^ 52 + c % 2 ^ 52) * 2 ^ (c / 2 ^ 52 - 1) :=
              Nat.mul_le_mul_right _ (Nat.le_add_right _ _)

theorem mag_mono (b c : Nat) (h : b ≤ c) : mag b ≤ mag c := by
  rcases Nat.lt_or_eq_of_le h with h1 | h1
  · exact Nat.le_of_lt (mag_strictMono b c h1)
  · rw [h1]

/-- The pattern after that of significand `m` at shift `j` has the next value. -/
theorem mag_pattern_succ (m j : Nat) (h1 : 2 ^ 52 ≤ m) (h2 : m < 2 ^ 53) :
    mag (j * 2 ^ 52 + m + 1) = (m + 1) * 2 ^ j := by
  by_cases hm : m + 1 < 2 ^ 53
  · rw [Nat.add_assoc]; exact mag_pattern (m + 1) j (by omega) hm
  · have hm1 : m + 1 = 2 ^ 53 := by omega
    have hpat : j * 2 ^ 52 + m + 1 = (j + 1) * 2 ^ 52 + 2 ^ 52 := by omega
    rw [hpat, mag_pattern (2 ^ 52) (j + 1) (by decide) (by decide), hm1,
      show (2 : Nat) ^ (j + 1) = 2 ^ j * 2 from pow_succ 2 j]
    generalize (2 : Nat) ^ j = P
    omega

/-- The two candidates of the rounding of `N`: with `k`, `q`, `r` as in `roundMag`,
the patterns `k * 2 ^ 52 + q` and its successor have the values `q * 2 ^ k` and
`(q + 1) * 2 ^ k`, which enclose `N`. -/
theorem roundMag_candidates (N : Nat) (h : 2 ^ 53 ≤ N) :
    mag ((bitLength N - 53) * 2 ^ 52 + N / 2 ^ (bitLength N - 53)) =
        N / 2 ^ (bitLength N - 53) * 2 ^ (bitLength N - 53) ∧
      mag ((bitLength N - 53) * 2 ^ 52 + N / 2 ^ (bitLength N - 53) + 1) =
        (N / 2 ^ (bitLength N - 53) + 1) * 2 ^ (bitLength N - 53) := by
  have h0 : N ≠ 0 := by
    have : 0 < 2 ^ 53 := by decide
    omega
  have hlo := two_pow_bitLength_le N h0
  have hhi := lt_two_pow_bitLength N
  have hL : 54 ≤ bitLength N := by
    by_contra hc
    have := Nat.pow_le_pow_right (by decide : 0 < 2) (by omega : bitLength N ≤ 53)
    omega
  obtain ⟨k, hk⟩ : ∃ k, bitLength N = k + 53 := ⟨bitLength N - 53, by omega⟩
  rw [hk] at hlo hhi ⊢
  simp only [Nat.add_sub_cancel]
  have hq1 : 2 ^ 52 ≤ N / 2 ^ k := by
    rw [Nat.le_div_iff_mul_le (Nat.two_pow_pos k), ← Nat.pow_add]
    rw [show k + 53 - 1 = 52 + k by omega] at hlo
    exact hlo
  have hq2 : N / 2 ^ k < 2 ^ 53 := by
    rw [Nat.div_lt_iff_lt_mul (Nat.two_pow_pos k), ← Nat.pow_add]
    rw [show k + 53 = 53 + k by omega] at hhi
    exact hhi
  exact ⟨mag_pattern _ _ hq1 hq2, mag_pattern_succ _ _ hq1 hq2⟩

/-- Correctness of the rounding: no bit pattern `b` has a value nearer to `N` than the
value of `roundMag N`, and if another value is as near, then `roundMag N` is the
even one of the two. (Patterns from `2047 * 2 ^ 52` on stand for the values a
wider exponent would give; results there are turned into infinities by `ofMag`.) -/
theorem roundMag_nearest (N b : Nat) :
    ((mag (roundMag N) : Int) - N).natAbs ≤ ((mag b : Int) - N).natAbs ∧
      (((mag (roundMag N) : Int) - N).natAbs = ((mag b : Int) - N).natAbs →
        mag b ≠ mag (roundMag N) → roundMag N % 2 = 0) := by
  by_cases hN : N < 2 ^ 53
  · rw [roundMag_of_lt N hN, mag_of_lt N hN]
    refine ⟨by simp, fun h1 h2 => ?_⟩
    exfalso; apply h2
    simp only [Int.sub_self, Int.natAbs_zero] at h1
    omega
  · obtain ⟨hlo, hhi⟩ := roundMag_candidates N (by omega)
    have hdm := Nat.div_add_mod N (2 ^ (bitLength N - 53))
    have hr := Nat.mod_lt N (Nat.two_pow_pos (bitLength N - 53))
    have hround : roundMag N = (bitLength N - 53) * 2 ^ 52 + N / 2 ^ (bitLength N - 53) +
        (if 2 ^ (bitLength N - 53) < 2 * (N % 2 ^ (bitLength N - 53)) ∨
            (2 * (N % 2 ^ (bitLength N - 53)) = 2 ^ (bitLength N - 53) ∧
              N / 2 ^ (bitLength N - 53) % 2 = 1) then 1 else 0) := rfl
    have hbelow := mag_mono b ((bitLength N - 53) * 2 ^ 52 + N / 2 ^ (bitLength N - 53))
    have habove := mag_mono ((bitLength N - 53) * 2 ^ 52 + N / 2 ^ (bitLength N - 53) + 1) b
    rw [hlo] at hbelow
    rw [hhi] at habove
    have hmulq : 2 ^ (bitLength N - 53) * (N / 2 ^ (bitLength N - 53)) =
        N / 2 ^ (bitLength N - 53) * 2 ^ (bitLength N - 53) := Nat.mul_comm _ _
    have hsucc : (N / 2 ^ (bitLength N - 53) + 1) * 2 ^ (bitLength N - 53) =
        N / 2 ^ (bitLength N - 53) * 2 ^ (bitLength N - 53) + 2 ^ (bitLength N - 53) := by
      rw [Nat.add_mul, Nat.one_mul]
    have hpat : ((bitLength N - 53) * 2 ^ 52) % 2 = 0 := by omega
    rw [hsucc] at hhi habove
    clear hsucc
    generalize N / 2 ^ (bitLength N - 53) * 2 ^ (bitLength N - 53) = QP at *
    generalize 2 ^ (bitLength N - 53) * (N / 2 ^ (bitLength N - 53)) = QP2 at *
    generalize N % 2 ^ (bitLength N - 53) = r at *
    generalize N / 2 ^ (bitLength N - 53) = q at *
    generalize 2 ^ (bitLength N - 53) = P at *
    generalize (bitLength N - 53) * 2 ^ 52 = K at *
    rw [hround]
    have hcases : b ≤ K + q ∨ K + q + 1 ≤ b := by omega
    split
    · rename_i hup
      rw [hhi]
      rcases hcases with hb | hb
      · have := hbelow hb; omega
      · have := habove hb; omega
    · rename_i hup
      rw [Nat.add_zero, hlo]
      rcases hcases with hb | hb
      · have := hbelow hb; omega
      · have := habove hb; omega

/-! ## Addition of finite doubles -/

/-- A finite double is the one nearest to its own value. -/
theorem ofExact_signedMag (s : Bool) (b : Fin (2047 * 2 ^ 52)) (h : Double.fin s b ≠ negZero) :
    ofExact (signedMag s b.val) = .fin s b := by
  unfold ofExact signedMag
  by_cases hm : mag b.val = 0
  · have hb : b = ⟨0, by decide⟩ := Fin.ext (mag_eq_zero _ hm)
    subst hb
    cases s
    · simp [hm, posZero]
    · exact absurd rfl h
  · cases s
    · have hz : ¬ ((mag b.val : Int) = 0) := by exact_mod_cast hm
      have hneg : ¬ ((mag b.val : Int) < 0) := by omega
      simp only [Bool.false_eq_true, if_false, hz, hneg, decide_False, Int.natAbs_ofNat]
      exact ofMag_mag false b
    · have hz : ¬ (-(mag b.val : Int) = 0) := by omega
      have hneg : -(mag b.val : Int) < 0 := by omega
      simp only [if_true, hz, if_false, hneg, decide_True, Int.natAbs_neg, Int.natAbs_ofNat]
      exact ofMag_mag true b

/-- Adding two finite doubles rounds their exact sum, except that `(-0) + (-0)` is
`-0`. -/
theorem add_fin_fin (sa sb : Bool) (a b : Fin (2047 * 2 ^ 52))
    (h : ¬ (Double.fin sa a = negZero ∧ Double.fin sb b = negZero)) :
    (Double.fin sa a).add (.fin sb b) = ofExact (signedMag sa a.val + signedMag sb b.val) := by
  simp only [Double.add, ofExact]
  by_cases hz : signedMag sa a.val + signedMag sb b.val = 0
  · simp only [hz, if_true, posZero]
    congr 1
    cases sa <;> cases sb <;> simp
    -- both negative: the two magnitudes are zero
    apply h
    simp only [signedMag, if_true] at hz
    have ha : mag a.val = 0 := by omega
    have hb : mag b.val = 0 := by omega
    have ha0 : a = ⟨0, by decide⟩ := Fin.ext (mag_eq_zero _ ha)
    have hb0 : b = ⟨0, by decide⟩ := Fin.ext (mag_eq_zero _ hb)
    subst ha0; subst hb0
    exact ⟨rfl, rfl⟩
  · simp only [hz, if_false]

theorem posZero_add (V : Double) (h : V ≠ negZero) : posZero.add V = V := by
  cases V with
  | nan => rfl
  | inf s => rfl
  | fin s b =>
    have h0 : signedMag false 0 = 0 := by decide
    rw [posZero, add_fin_fin _ _ _ _ (fun hh => by simp [negZero] at hh)]
    simp only [h0, Int.zero_add]
    exact ofExact_signedMag s b h

theorem posZero_add_negZero : posZero.add negZero = posZero := by decide

theorem val_ofExact (z : Int) (h : Representable z) : (ofExact z).val? = some z := by
  unfold ofExact
  by_cases hz : z = 0
  · subst hz; rw [if_pos rfl]; decide
  · rw [if_neg hz]
    unfold ofMag
    rw [dif_pos h.1]
    simp only [Double.val?, signedMag, h.2]
    by_cases hneg : z < 0
    · simp only [hneg, decide_True, if_true]
      congr 1; omega
    · simp only [hneg, decide_False, Bool.false_eq_true, if_false]
      congr 1; omega

theorem ofExact_ne_negZero (z : Int) (h : Representable z) : ofExact z ≠ negZero := by
  intro hc
  have hv := val_ofExact z h
  rw [hc] at hv
  have h0 : negZero.val? = some 0 := by decide
  rw [h0] at hv
  have hz : z = 0 := (Option.some.inj hv).symm
  subst hz
  exact absurd hc (by decide)

/-- Adding a finite double to the double of an exact value rounds the exact sum. -/
theorem ofExact_add (a : Int) (ha : Representable a) (x : Double) (v : Int)
    (hx : x.val? = some v) : (ofExact a).add x = ofExact (a + v) := by
  have hva := val_ofExact a ha
  have hnz := ofExact_ne_negZero a ha
  cases hA : ofExact a with
  | nan => rw [hA] at hva; simp [Double.val?] at hva
  | inf s => rw [hA] at hva; simp [Double.val?] at hva
  | fin sa ba =>
    cases x with
    | nan => simp [Double.val?] at hx
    | inf s => simp [Double.val?] at hx
    | fin sb bb =>
      rw [hA] at hva hnz
      simp only [Double.val?, Option.some.injEq] at hva hx
      rw [add_fin_fin sa sb ba bb (fun hh => hnz hh.1), hva, hx]

theorem ofExact_ne_nan (z : Int) : ofExact z ≠ .nan := by
  unfold ofExact ofMag posZero
  split
  · simp
  · split <;> simp

/-! ## Exact sums -/

theorem exactSum_cons_some (x : Double) (t : List Double) (z : Int)
    (h : exactSum (x :: t) = some z) :
    ∃ v r, x.val? = some v ∧ exactSum t = some r ∧ z = v + r := by
  simp only [exactSum] at h
  cases hv : x.val? with
  | none => rw [hv] at h; simp at h
  | some v =>
    cases hr : exactSum t with
    | none => rw [hv, hr] at h; simp at h
    | some r =>
      rw [hv, hr] at h
      exact ⟨v, r, rfl, rfl, (Option.some.inj h).symm⟩

theorem exactSum_cons (x : Double) (t : List Double) (v r : Int)
    (hv : x.val? = some v) (hr : exactSum t = some r) : exactSum (x :: t) = some (v + r) := by
  simp [exactSum, hv, hr]

/-- When every running sum is the value of a double, the fold is exact. -/
theorem foldl_add_ofExact (l : List Double) :
    ∀ (a : Int), Representable a →
      (∀ k, k ≤ l.length → ∃ z, exactSum (l.take k) = some z ∧ Representable (a + z)) →
      ∃ z, exactSum l = some z ∧ List.foldl Double.add (ofExact a) l = ofExact (a + z) := by
  induction l with
  | nil => intro a _ _; exact ⟨0, rfl, by simp⟩
  | cons x t ih =>
    intro a ha hall
    obtain ⟨z1, hz1, hrep1⟩ := hall 1 (by simp)
    simp only [List.take_succ_cons, List.take_zero] at hz1
    obtain ⟨v, r0, hv, hr0, hz1eq⟩ := exactSum_cons_some x [] z1 hz1
    have hr00 : r0 = 0 := by
      have : exactSum [] = some (0 : Int) := rfl
      rw [this] at hr0
      exact (Option.some.inj hr0).symm
    have hz1v : z1 = v := by omega
    subst hz1v
    have hstep : ∀ k, k ≤ t.length →
        ∃ z, exactSum (t.take k) = some z ∧ Representable (a + z1 + z) := by
      intro k hk
      obtain ⟨z, hz, hrep⟩ := hall (k + 1) (by simpa using hk)
      simp only [List.take_succ_cons] at hz
      obtain ⟨v2, r, hv2, hr, hzeq⟩ := exactSum_cons_some x (t.take k) z hz
      rw [hv] at hv2
      have : z1 = v2 := Option.some.inj hv2
      subst this
      refine ⟨r, hr, ?_⟩
      rw [Int.add_assoc, ← hzeq]
      exact hrep
    obtain ⟨z, hz, hfold⟩ := ih (a + z1) hrep1 hstep
    refine ⟨z1 + z, exactSum_cons x t z1 z hv hz, ?_⟩
    rw [List.foldl_cons, ofExact_add a ha x z1 hv, hfold, Int.add_assoc]

theorem exactSum_perm (l1 l2 : List Double) (h : l1.Perm l2) : exactSum l1 = exactSum l2 := by
  induction h with
  | nil => rfl
  | cons x _ ih => simp only [exactSum, ih]
  | swap x y l =>
    simp only [exactSum]
    cases x.val? <;> cases y.val? <;> cases exactSum l <;> simp
    omega
  | trans _ _ ih1 ih2 => exact ih1.trans ih2

theorem sumRepresentable_iff (S : List Double) :
    sumRepresentable S = true ↔ ∃ z, exactSum S = some z ∧ Representable z := by
  unfold sumRepresentable
  cases exactSum S with
  | none => simp
  | some z => simp

/-- When the exact sum of every sub-collection of `X` is the value of a double, the
left fold over any permutation `Y` of `X` is the double of the exact sum of `X`. -/
theorem foldl_add_perm_exact (X Y : List Double)
    (hrep : ∀ S ∈ X.sublists, sumRepresentable S = true) (hperm : Y.Perm X) :
    ∃ z, exactSum X = some z ∧ Representable z ∧
      List.foldl Double.add posZero Y = ofExact z := by
  have hX : sumRepresentable X = true := hrep X (List.mem_sublists.2 (List.Sublist.refl X))
  obtain ⟨zX, hzX, hrepX⟩ := (sumRepresentable_iff X).1 hX
  have h0 : Representable 0 := by decide
  have hpre : ∀ k, k ≤ Y.length →
      ∃ z, exactSum (Y.take k) = some z ∧ Representable (0 + z) := by
    intro k _
    have hsub : (Y.take k).Subperm X := (List.take_sublist k Y).subperm.trans hperm.subperm
    obtain ⟨S, hS, hSX⟩ := hsub
    obtain ⟨z, hz, hr⟩ := (sumRepresentable_iff S).1 (hrep S (List.mem_sublists.2 hSX))
    refine ⟨z, ?_, by simpa using hr⟩
    rw [← exactSum_perm S (Y.take k) hS]
    exact hz
  obtain ⟨z, hz, hfold⟩ := foldl_add_ofExact Y 0 h0 hpre
  have hzz : z = zX := by
    rw [exactSum_perm Y X hperm, hzX] at hz
    exact (Option.some.inj hz).symm
  subst hzz
  refine ⟨z, hzX, hrepX, ?_⟩
  have hp : posZero = ofExact 0 := by decide
  rw [hp, hfold, Int.zero_add]

/-- The values of finite doubles are the magnitudes of the 63-bit patterns below
`2047 * 2 ^ 52`. -/
theorem representable_iff (z : Int) :
    Representable z ↔ ∃ b, b < 2047 * 2 ^ 52 ∧ mag b = z.natAbs := by
  constructor
  · intro h; exact ⟨_, h.1, h.2⟩
  · rintro ⟨b, hb, hm⟩
    have hr : roundMag z.natAbs = b := by rw [← hm]; exact roundMag_mag b
    exact ⟨by rw [hr]; exact hb, by rw [hr]; exact hm⟩

theorem representable_mul_two_pow (m j : Nat) (h1 : 2 ^ 52 ≤ m) (h2 : m < 2 ^ 53)
    (hj : j ≤ 2045) (z : Int) (hz : z.natAbs = m * 2 ^ j) : Representable z := by
  unfold Representable
  rw [hz, roundMag_mul_two_pow m j h1 h2, mag_pattern m j h1 h2]
  refine ⟨?_, rfl⟩
  have : j * 2 ^ 52 ≤ 2045 * 2 ^ 52 := Nat.mul_le_mul_right _ hj
  omega

/-- Integers of magnitude at most `2 ^ 53` are values of doubles. -/
theorem representable_int (m : Int) (h : m.natAbs ≤ 2 ^ 53) :
    Representable (m * 2 ^ unitExp) := by
  have habs : (m * 2 ^ unitExp).natAbs = m.natAbs * 2 ^ unitExp := by
    rw [Int.natAbs_mul, Int.natAbs_pow, show Int.natAbs 2 = 2 from rfl]
  by_cases h0 : m.natAbs = 0
  · have : m = 0 := Int.natAbs_eq_zero.1 h0
    subst this
    rw [Int.zero_mul]; decide
  by_cases hmax : m.natAbs = 2 ^ 53
  · apply representable_mul_two_pow (2 ^ 52) (unitExp + 1) (by decide) (by decide)
      (by decide)
    rw [habs, hmax, show (2 : Nat) ^ (unitExp + 1) = 2 ^ unitExp * 2 from pow_succ 2 unitExp]
    clear habs
    generalize (2 : Nat) ^ unitExp = P
    omega
  · have hlt : m.natAbs < 2 ^ 53 := by omega
    have hL := bitLength_le_of_lt _ 53 hlt
    have hlo := two_pow_bitLength_le _ h0
    have hhi := lt_two_pow_bitLength m.natAbs
    have hLpos : bitLength m.natAbs ≠ 0 := by
      intro hc; rw [hc, Nat.pow_zero] at hhi; omega
    obtain ⟨L, hLeq⟩ := Nat.exists_eq_succ_of_ne_zero hLpos
    rw [hLeq] at hL hlo hhi
    simp only [Nat.succ_sub_one] at hlo
    have hL52 : L ≤ 52 := by omega
    apply representable_mul_two_pow (m.natAbs * 2 ^ (52 - L)) (1022 + L)
    · calc 2 ^ 52 = 2 ^ L * 2 ^ (52 - L) := by rw [← Nat.pow_add]; congr 1; omega
        _ ≤ m.natAbs * 2 ^ (52 - L) := Nat.mul_le_mul_right _ hlo
    · calc m.natAbs * 2 ^ (52 - L) < 2 ^ (L + 1) * 2 ^ (52 - L) :=
            Nat.mul_lt_mul_of_pos_right hhi (Nat.two_pow_pos _)
        _ = 2 ^ 53 := by rw [← Nat.pow_add]; congr 1; omega
    · omega
    · rw [habs, Nat.mul_assoc, ← Nat.pow_add]
      congr 2
      unfold unitExp; omega

theorem ofInt_eq_ofExact (m : Int) : ofInt m = ofExact (m * 2 ^ unitExp) := by
  unfold ofInt ofExact
  have hpos : (0 : Int) < 2 ^ unitExp := pow_pos (by decide) unitExp
  by_cases h0 : m = 0
  · subst h0; simp
  · have hne : m * 2 ^ unitExp ≠ 0 := Int.mul_ne_zero h0 (Int.ne_of_gt hpos)
    have hlt : (m * 2 ^ unitExp < 0) ↔ m < 0 := by
      constructor
      · intro h
        by_contra hc
        have : 0 ≤ m * 2 ^ unitExp := Int.mul_nonneg (by omega) (Int.le_of_lt hpos)
        omega
      · intro h; exact Int.mul_neg_of_neg_of_pos h hpos
    have habs : (m * 2 ^ unitExp).natAbs = m.natAbs * 2 ^ unitExp := by
      rw [Int.natAbs_mul, Int.natAbs_pow, show Int.natAbs 2 = 2 from rfl]
    rw [if_neg h0, if_neg hne, habs]
    congr 1
    simp [hlt]

theorem exactSum_map_ofInt (T : List Int) (h : (T.map Int.natAbs).sum ≤ 2 ^ 53) :
    exactSum (T.map ofInt) = some (T.sum * 2 ^ unitExp) := by
  induction T with
  | nil => simp [exactSum]
  | cons m t ih =>
    simp only [List.map_cons, List.sum_cons] at h ⊢
    have hm : (ofInt m).val? = some (m * 2 ^ unitExp) := by
      rw [ofInt_eq_ofExact]
      exact val_ofExact _ (representable_int m (by omega))
    rw [exactSum_cons _ _ _ _ hm (ih (by omega))]
    rw [Int.add_mul]

theorem natAbs_sum_le (T : List Int) : T.sum.natAbs ≤ (T.map Int.natAbs).sum := by
  induction T with
  | nil => simp
  | cons m t ih =>
    simp only [List.map_cons, List.sum_cons]
    have := Int.natAbs_add_le m t.sum
    omega

/-- Integer-valued doubles whose magnitudes total at most `2 ^ 53` are an instance:
every sub-collection of them has an exact sum that is the value of a double. -/
theorem sumRepresentable_ints (ms : List Int) (h : (ms.map Int.natAbs).sum ≤ 2 ^ 53) :
    ∀ S ∈ (ms.map ofInt).sublists, sumRepresentable S = true := by
  intro S hS
  rw [List.sublists_map, List.mem_map] at hS
  obtain ⟨T, hT, hTS⟩ := hS
  subst hTS
  have hsub : T.Sublist ms := List.mem_sublists.1 hT
  have hle : (T.map Int.natAbs).sum ≤ (ms.map Int.natAbs).sum :=
    (hsub.map Int.natAbs).sum_le_sum (fun _ _ => Nat.zero_le _)
  rw [sumRepresentable_iff]
  refine ⟨_, exactSum_map_ofInt T (by omega), representable_int _ ?_⟩
  have := natAbs_sum_le T
  omega

/-- Adding `1.0` repeatedly counts exactly up to `2 ^ 53`. -/
theorem foldl_add_replicate_one (k : Nat) (hk : k ≤ 2 ^ 53) :
    List.foldl Double.add posZero (List.replicate k (ofInt 1)) = ofInt (k : Int) := by
  induction k with
  | zero => decide
  | succ k ih =>
    have h1 : (ofInt 1).val? = some (1 * 2 ^ unitExp) := by
      rw [ofInt_eq_ofExact]
      exact val_ofExact _ (representable_int 1 (by decide))
    rw [List.replicate_succ', List.foldl_append, ih (by omega), List.foldl_cons, List.foldl_nil,
      ofInt_eq_ofExact (k : Int),
      ofExact_add _ (representable_int (k : Int) (by simpa using (by omega : k ≤ 2 ^ 53))) _ _ h1,
      ofInt_eq_ofExact, ← Int.add_mul]
    rfl

/-! ## NaN and infinities in the fold -/

theorem nan_add (x : Double) : Double.nan.add x = .nan := by
  cases x <;> rfl

theorem add_nan (x : Double) : x.add .nan = .nan := by
  cases x <;> rfl

theorem foldl_add_nan (l : List Double) : List.foldl Double.add .nan l = .nan := by
  induction l with
  | nil => rfl
  | cons x t ih => rw [List.foldl_cons, nan_add, ih]

theorem foldl_add_of_nan_mem (l : List Double) (acc : Double) (h : Double.nan ∈ l) :
    List.foldl Double.add acc l = .nan := by
  induction l generalizing acc with
  | nil => simp at h
  | cons x t ih =>
    rw [List.foldl_cons]
    rcases List.mem_cons.1 h with hx | ht
    · rw [← hx, add_nan, foldl_add_nan]
    · exact ih _ ht

theorem isNaN_iff (x : Double) : x.isNaN = true ↔ x = .nan := by
  cases x <;> simp [Double.isNaN]

/-- Adding to an infinity, or adding an infinity, gives that infinity or NaN. -/
theorem inf_add (s : Bool) (x : Double) :
    (Double.inf s).add x = .inf s ∨ (Double.inf s).add x = .nan := by
  cases x with
  | nan => right; rfl
  | inf t => by_cases h : s = t <;> simp [Double.add, h]
  | fin t b => left; rfl

theorem add_inf (s : Bool) (x : Double) :
    x.add (.inf s) = .inf s ∨ x.add (.inf s) = .nan := by
  cases x with
  | nan => right; rfl
  | inf t =>
    by_cases h : t = s
    · subst h; simp [Double.add]
    · simp [Double.add, h]
  | fin t b => left; rfl

theorem foldl_add_inf_or_nan (s : Bool) (l : List Double) (acc : Double)
    (h : acc = .inf s ∨ acc = .nan) :
    List.foldl Double.add acc l = .inf s ∨ List.foldl Double.add acc l = .nan := by
  induction l generalizing acc with
  | nil => simpa using h
  | cons x t ih =>
    rw [List.foldl_cons]
    apply ih
    rcases h with h | h
    · rw [h]; exact inf_add s x
    · right; rw [h]; exact nan_add x

theorem foldl_add_of_inf_mem (s : Bool) (l : List Double) (acc : Double)
    (h : Double.inf s ∈ l) :
    List.foldl Double.add acc l = .inf s ∨ List.foldl Double.add acc l = .nan := by
  induction l generalizing acc with
  | nil => simp at h
  | cons x t ih =>
    rw [List.foldl_cons]
    rcases List.mem_cons.1 h with hx | ht
    · rw [← hx]; exact foldl_add_inf_or_nan s t _ (add_inf s acc)
    · exact ih _ ht

/-- The sum of two operands that are neither NaN nor infinities of opposite sign is
not NaN. -/
theorem add_ne_nan (a x : Double) (ha : a ≠ .nan) (ha2 : a ≠ .inf true) (hx : x ≠ .nan)
    (hx2 : x ≠ .inf true) : a.add x ≠ .nan := by
  cases a with
  | nan => exact absurd rfl ha
  | inf s =>
    cases x with
    | nan => exact absurd rfl hx
    | inf t =>
      cases s
      · cases t
        · simp [Double.add]
        · exact absurd rfl hx2
      · exact absurd rfl ha2
    | fin t b => simp [Double.add]
  | fin s a =>
    cases x with
    | nan => exact absurd rfl hx
    | inf t => simp [Double.add]
    | fin t b =>
      simp only [Double.add]
      split
      · simp
      · unfold ofMag; split <;> simp

theorem foldl_add_pos_inf (l : List Double) (acc : Double)
    (h1 : acc ≠ .nan) (h2 : acc ≠ .inf true)
    (hp : acc = .inf false ∨ Double.inf false ∈ l)
    (hm : Double.inf true ∉ l) (hnan : Double.nan ∉ l)
    (hov : ∀ k, k ≤ l.length → List.foldl Double.add acc (l.take k) ≠ .inf true) :
    List.foldl Double.add acc l = .inf false := by
  induction l generalizing acc with
  | nil => simpa using hp
  | cons x t ih =>
    rw [List.foldl_cons]
    have hx1 : x ≠ .nan := fun h => hnan (by simp [h])
    have hx2 : x ≠ .inf true := fun h => hm (by simp [h])
    apply ih
    · exact add_ne_nan acc x h1 h2 hx1 hx2
    · simpa using hov 1 (by simp)
    · rcases hp with hp | hp
      · left
        rcases inf_add false x with h | h
        · rw [hp]; exact h
        · exact absurd (hp ▸ h) (add_ne_nan acc x h1 h2 hx1 hx2)
      · rcases List.mem_cons.1 hp with hx | ht
        · left
          rcases add_inf false acc with h | h
          · rw [← hx]; exact h
          · exact absurd (hx ▸ h) (add_ne_nan acc x h1 h2 hx1 hx2)
        · right; exact ht
    · exact fun h => hm (List.mem_cons_of_mem _ h)
    · exact fun h => hnan (List.mem_cons_of_mem _ h)
    · intro k hk
      simpa using hov (k + 1) (by simpa using hk)

/-! ## The loop computes the left fold -/

theorem c_sum_loop_spec (w n : Nat) (hn : n < 2 ^ w) :
    ∀ (fuel : Nat) (st : Frame), st.i ≤ n → n ≤ st.X.length → n - st.i < fuel →
      c_sum_loop w n fuel st =
        .ok { X := st.X, i := n,
              s := List.foldl Double.add st.s ((st.X.drop st.i).take (n - st.i)),
              reads := st.reads ++ List.range' st.i (n - st.i) } := by
  intro fuel
  induction fuel with
  | zero => intro st _ _ h; omega
  | succ fuel ih =>
    intro st hi hX hf
    rw [c_sum_loop]
    by_cases hlt : st.i < n
    · have hlen : st.i < st.X.length := by omega
      have hmod : (st.i + 1) % 2 ^ w = st.i + 1 := Nat.mod_eq_of_lt (by omega)
      rw [if_pos hlt, List.getElem?_eq_getElem hlen]
      simp only [hmod]
      rw [ih _ (by simpa using hlt) (by simpa using hX) (by simp; omega)]
      have hsplit : n - st.i = (n - (st.i + 1)) + 1 := by omega
      simp only [hsplit, List.drop_eq_getElem_cons hlen, List.take_succ_cons, List.foldl_cons,
        List.range'_succ, List.append_assoc, List.singleton_append]
    · have heq : st.i = n := by omega
      rw [if_neg hlt]
      cases st
      simp_all

/-- Folding over the first `n` elements is folding over the indices `0 .. n-1`. -/
theorem foldl_take_eq_foldl_range {α β : Type} (f : β → α → β) (X : List α) (d : α) (n : Nat)
    (hX : n ≤ X.length) (b : β) :
    List.foldl f b (X.take n) = List.foldl (fun acc j => f acc (X.getD j d)) b (List.range n) := by
  induction n with
  | zero => simp
  | succ n ih =>
    have hlt : n < X.length := by omega
    rw [List.range_succ, List.foldl_append, ← ih (by omega), List.take_succ,
      List.foldl_append, List.getElem?_eq_getElem hlt]
    simp [List.getD_eq_getElem?_getD, List.getElem?_eq_getElem hlt]

/-- The frame `c_sum` returns from when `n` fits `size_t` and `X` holds `n` elements. -/
theorem c_sum_ok (w n : Nat) (X : List Double) (hn : n < 2 ^ w) (hX : n ≤ X.length) :
    c_sum_exec w n X =
      .ok { X := X, i := n, s := List.foldl Double.add posZero (X.take n),
            reads := List.range' 0 n } := by
  unfold c_sum_exec
  rw [c_sum_loop_spec w n hn (n + 1) _ (Nat.zero_le _) hX (by simp)]
  simp

/-- The value `c_sum` returns: the left fold of `Double.add` from `+0.0`. -/
theorem c_sum_val (w n : Nat) (X : List Double) (hn : n < 2 ^ w) (hX : n ≤ X.length) :
    c_sum w n X = .ok (List.foldl Double.add posZero (X.take n)) := by
  unfold c_sum
  rw [c_sum_ok w n X hn hX]
  rfl

theorem c_sum_loop_congr (w n : Nat) :
    ∀ (fuel : Nat) (st st2 : Frame), st.i = st2.i → st.s = st2.s →
      st.X.take n = st2.X.take n →
      (c_sum_loop w n fuel st).map (fun r => r.s) =
        (c_sum_loop w n fuel st2).map (fun r => r.s) := by
  intro fuel
  induction fuel with
  | zero => intro st st2 _ _ _; rfl
  | succ fuel ih =>
    intro st st2 hi hs hX
    rw [c_sum_loop, c_sum_loop, ← hi]
    by_cases hlt : st.i < n
    · have hget : st.X[st.i]? = st2.X[st.i]? := by
        have h1 := @List.getElem?_take_of_lt _ st.X n st.i hlt
        have h2 := @List.getElem?_take_of_lt _ st2.X n st.i hlt
        rw [← h1, hX, h2]
      rw [if_pos hlt, if_pos hlt, ← hget]
      cases hx : st.X[st.i]? with
      | none => rfl
      | some x => exact ih _ _ rfl (by simp [hs]) hX
    · rw [if_neg hlt, if_neg hlt]
      simp [Except.map, hs]

/-- With fewer tests available than the loop needs, the run is cut short. -/
theorem c_sum_loop_outOfFuel (w n : Nat) (hn : n < 2 ^ w) :
    ∀ (fuel : Nat) (st : Frame), st.i ≤ n → n ≤ st.X.length → fuel ≤ n - st.i →
      c_sum_loop w n fuel st = .error .outOfFuel := by
  intro fuel
  induction fuel with
  | zero => intro st _ _ _; rfl
  | succ fuel ih =>
    intro st hi hX hf
    have hlt : st.i < n := by omega
    have hlen : st.i < st.X.length := by omega
    have hmod : (st.i + 1) % 2 ^ w = st.i + 1 := Nat.mod_eq_of_lt (by omega)
    rw [c_sum_loop, if_pos hlt, List.getElem?_eq_getElem hlen]
    simp only [hmod]
    exact ih _ (by simpa using hlt) (by simpa using hX) (by simp; omega)

/-- The test `i < n` guards every access: with `n` elements in the array no run
reaches the out-of-bounds fault, whatever the frame and the fuel. -/
theorem c_sum_loop_inBounds (w n : Nat) :
    ∀ (fuel : Nat) (st : Frame), n ≤ st.X.length →
      c_sum_loop w n fuel st ≠ .error .outOfBounds := by
  intro fuel
  induction fuel with
  | zero => intro st _ h; exact absurd h (by simp [c_sum_loop])
  | succ fuel ih =>
    intro st hX
    rw [c_sum_loop]
    by_cases hlt : st.i < n
    · have hlen : st.i < st.X.length := by omega
      rw [if_pos hlt, List.getElem?_eq_getElem hlen]
      exact ih _ (by simpa using hX)
    · rw [if_neg hlt]
      simp

/-! ## C1 -/

/-- C1: for every count `n` (a `size_t` value) and every `X` holding at least `n`
doubles, `c_sum(n, X)` returns the left-to-right fold
`((((0.0 + X[0]) + X[1]) + ...) + X[n-1])` of double addition over the first `n`
elements from the accumulator `0.0`, and it reads the elements in index order
`0, 1, ..., n-1`, each once: nothing is reordered or regrouped. -/
theorem c_sum_eq_foldl (w n : Nat) (X : List Double) (hn : n < 2 ^ w) (hX : n ≤ X.length) :
    c_sum w n X = .ok (List.foldl Double.add posZero (X.take n)) ∧
      ∃ st, c_sum_exec w n X = .ok st ∧ st.reads = List.range n ∧
        st.s = List.foldl (fun acc j => acc.add (X.getD j .nan)) posZero st.reads := by
  refine ⟨c_sum_val w n X hn hX, _, c_sum_ok w n X hn hX, ?_, ?_⟩
  · simp [List.range_eq_range']
  · simp only
    rw [← List.range_eq_range']
    exact foldl_take_eq_foldl_range Double.add X .nan n hX posZero

theorem c_sum_eq_foldl_witness :
    c_sum 64 3 [ofBits false 0x3FF0000000000000, ofBits false 0x3FB999999999999A,
        ofBits false 0x3FC999999999999A, .nan] =
      .ok (List.foldl Double.add posZero
        ([ofBits false 0x3FF0000000000000, ofBits false 0x3FB999999999999A,
          ofBits false 0x3FC999999999999A, .nan].take 3)) ∧
      ∃ st, c_sum_exec 64 3 [ofBits false 0x3FF0000000000000, ofBits false 0x3FB999999999999A,
          ofBits false 0x3FC999999999999A, .nan] = .ok st ∧ st.reads = List.range 3 ∧
        st.s = List.foldl (fun acc j => acc.add
          ([ofBits false 0x3FF0000000000000, ofBits false 0x3FB999999999999A,
            ofBits false 0x3FC999999999999A, Double.nan].getD j .nan)) posZero st.reads :=
  c_sum_eq_foldl 64 3 _ (by decide) (by decide)

/-! ## C2 -/

/-- C2: for every `X` (also the empty one), `c_sum(0, X)` returns exactly `+0.0`;
the loop body is not entered: the index is still `0` and no element of `X` has been
read. -/
theorem c_sum_zero (w : Nat) (X : List Double) :
    c_sum w 0 X = .ok posZero ∧
      c_sum_exec w 0 X = .ok { X := X, i := 0, s := posZero, reads := [] } := by
  constructor <;> rfl

/-! ## C3 -/

/-- C3, as stated, fails at `V = -0.0`: `c_sum(1, [-0.0])` returns `+0.0`, which is
not `-0.0`. -/
theorem c_sum_single_negZero :
    c_sum 64 1 [negZero] = .ok posZero ∧ ¬ (c_sum 64 1 [negZero] = .ok negZero) := by
  decide

/-- C3 (amended): for every double `V` other than negative zero, `c_sum(1, [V])`
returns `V` (a NaN for a NaN); for `V = -0.0` it returns `+0.0`. -/
theorem c_sum_single (w : Nat) (V : Double) (hw : 1 < 2 ^ w) :
    c_sum w 1 [V] = .ok (if V = negZero then posZero else V) := by
  rw [c_sum_val w 1 [V] hw (by simp)]
  simp only [List.take_succ_cons, List.take_zero, List.foldl_cons, List.foldl_nil]
  by_cases h : V = negZero
  · rw [if_pos h, h, posZero_add_negZero]
  · rw [if_neg h, posZero_add V h]

theorem c_sum_single_witness :
    1 < 2 ^ 64 ∧
      c_sum 64 1 [ofBits true 0x3FB999999999999A] =
        .ok (if ofBits true 0x3FB999999999999A = negZero then posZero
             else ofBits true 0x3FB999999999999A) :=
  ⟨by decide, c_sum_single 64 (ofBits true 0x3FB999999999999A) (by decide)⟩

/-! ## C4 -/

/-- C4, as stated, fails. In `[2^52, 1, -1, 2^52]` every two elements have an exact
sum and every addition `c_sum` performs is exact, the result being the exact sum
`2^53`; on the permutation `[2^52, 2^52, 1, -1]` it returns `2^53 - 1`. In
`[2^52, 2^52, 1]` every two elements have an exact sum, and the result `2^53` is not
the exact sum `2^53 + 1`. -/
theorem c_sum_perm_differs :
    (List.Pairwise (fun x y => exactAdd x y = true)
        [ofInt 4503599627370496, ofInt 1, ofInt (-1), ofInt 4503599627370496] ∧
      stepsExact posZero
        [ofInt 4503599627370496, ofInt 1, ofInt (-1), ofInt 4503599627370496] = true ∧
      List.Perm [ofInt 4503599627370496, ofInt 4503599627370496, ofInt 1, ofInt (-1)]
        [ofInt 4503599627370496, ofInt 1, ofInt (-1), ofInt 4503599627370496] ∧
      c_sum 64 4 [ofInt 4503599627370496, ofInt 1, ofInt (-1), ofInt 4503599627370496] =
        .ok (ofInt 9007199254740992) ∧
      c_sum 64 4 [ofInt 4503599627370496, ofInt 4503599627370496, ofInt 1, ofInt (-1)] =
        .ok (ofInt 9007199254740991) ∧
      ofInt 9007199254740992 ≠ ofInt 9007199254740991) ∧
    (List.Pairwise (fun x y => exactAdd x y = true)
        [ofInt 4503599627370496, ofInt 4503599627370496, ofInt 1] ∧
      c_sum 64 3 [ofInt 4503599627370496, ofInt 4503599627370496, ofInt 1] =
        .ok (ofInt 9007199254740992) ∧
      (ofInt 9007199254740992).val? ≠
        exactSum [ofInt 4503599627370496, ofInt 4503599627370496, ofInt 1]) := by
  decide!

/-- C4 (amended): for every sequence `X` of finite doubles in which the exact sum of
every sub-collection of the elements is itself the value of a double, `c_sum`
returns the mathematically exact sum of the elements, and returns that same value
on every permutation `Y` of the sequence. -/
theorem c_sum_exact_perm (w : Nat) (X Y : List Double) (hn : X.length < 2 ^ w)
    (hrep : ∀ S ∈ X.sublists, sumRepresentable S = true) (hperm : Y.Perm X) :
    ∃ d, c_sum w X.length X = .ok d ∧ d.val? = exactSum X ∧
      c_sum w Y.length Y = .ok d := by
  obtain ⟨z, hz, hr, hfX⟩ := foldl_add_perm_exact X X hrep (List.Perm.refl X)
  obtain ⟨z2, hz2, _, hfY⟩ := foldl_add_perm_exact X Y hrep hperm
  have hzz : z2 = z := by
    rw [hz] at hz2
    exact (Option.some.inj hz2).symm
  subst hzz
  refine ⟨ofExact z2, ?_, ?_, ?_⟩
  · rw [c_sum_val w X.length X hn (Nat.le_refl _), List.take_length, hfX]
  · rw [hz]; exact val_ofExact z2 hr
  · rw [c_sum_val w Y.length Y (by rw [hperm.length_eq]; exact hn) (Nat.le_refl _),
      List.take_length, hfY]

theorem c_sum_exact_perm_witness :
    ∃ d, c_sum 64 [ofInt 1, ofInt (-2), ofBits false 0x3FE0000000000000].length
          [ofInt 1, ofInt (-2), ofBits false 0x3FE0000000000000] = .ok d ∧
      d.val? = exactSum [ofInt 1, ofInt (-2), ofBits false 0x3FE0000000000000] ∧
      c_sum 64 [ofBits false 0x3FE0000000000000, ofInt 1, ofInt (-2)].length
          [ofBits false 0x3FE0000000000000, ofInt 1, ofInt (-2)] = .ok d :=
  c_sum_exact_perm 64 [ofInt 1, ofInt (-2), ofBits false 0x3FE0000000000000]
    [ofBits false 0x3FE0000000000000, ofInt 1, ofInt (-2)] (by decide) (by decide!) (by decide!)

/-! ## C5 -/

/-- C5: for every `n` and `X` holding `n` doubles, if one of the first `n` elements
is NaN then `c_sum(n, X)` returns NaN. -/
theorem c_sum_nan (w n : Nat) (X : List Double) (hn : n < 2 ^ w) (hX : n ≤ X.length)
    (h : ∃ x ∈ X.take n, x.isNaN = true) :
    ∃ r, c_sum w n X = .ok r ∧ r.isNaN = true := by
  obtain ⟨x, hx, hnan⟩ := h
  rw [isNaN_iff] at hnan
  subst hnan
  exact ⟨.nan, by rw [c_sum_val w n X hn hX, foldl_add_of_nan_mem _ _ hx], rfl⟩

theorem c_sum_nan_witness :
    ∃ r, c_sum 64 3 [ofBits false 0x3FF0000000000000, .nan, .inf false] = .ok r ∧
      r.isNaN = true :=
  c_sum_nan 64 3 [ofBits false 0x3FF0000000000000, .nan, .inf false] (by decide) (by decide)
    ⟨.nan, by decide, rfl⟩

/-! ## C6 -/

/-- C6, as stated, fails: `[+inf, NaN]` and `[-DBL_MAX, -DBL_MAX, +inf]` contain
`+inf` and no `-inf`, and `c_sum` returns NaN on both (in the second the running sum
overflows to `-inf` before `+inf` is added). -/
theorem c_sum_inf_not_inf :
    (Double.inf false ∈ [Double.inf false, Double.nan] ∧
      Double.inf true ∉ [Double.inf false, Double.nan] ∧
      c_sum 64 2 [.inf false, .nan] = .ok .nan) ∧
    (Double.inf false ∈
        [ofBits true 0x7FEFFFFFFFFFFFFF, ofBits true 0x7FEFFFFFFFFFFFFF, Double.inf false] ∧
      Double.inf true ∉
        [ofBits true 0x7FEFFFFFFFFFFFFF, ofBits true 0x7FEFFFFFFFFFFFFF, Double.inf false] ∧
      Double.nan ∉
        [ofBits true 0x7FEFFFFFFFFFFFFF, ofBits true 0x7FEFFFFFFFFFFFFF, Double.inf false] ∧
      c_sum 64 3 [ofBits true 0x7FEFFFFFFFFFFFFF, ofBits true 0x7FEFFFFFFFFFFFFF, .inf false] =
        .ok .nan) := by
  decide!

/-- C6 (amended): for every `n` and `X` holding `n` doubles, if the first `n` elements
contain `+inf`, contain neither `-inf` nor NaN, and no running sum
`0.0 + X[0] + ... + X[k-1]` (`k ≤ n`) has overflowed to `-inf`, then `c_sum(n, X)`
returns `+inf`. -/
theorem c_sum_pos_inf (w n : Nat) (X : List Double) (hn : n < 2 ^ w) (hX : n ≤ X.length)
    (hp : Double.inf false ∈ X.take n) (hm : Double.inf true ∉ X.take n)
    (hnan : Double.nan ∉ X.take n)
    (hov : ∀ k, k ≤ n → List.foldl Double.add posZero (X.take k) ≠ .inf true) :
    c_sum w n X = .ok (.inf false) := by
  rw [c_sum_val w n X hn hX]
  congr 1
  apply foldl_add_pos_inf _ _ (by decide) (by decide) (Or.inr hp) hm hnan
  intro k hk
  rw [List.take_take]
  have hk2 : k ≤ n := by
    have := List.length_take_le n X
    omega
  rw [Nat.min_eq_left hk2]
  exact hov k hk2

theorem c_sum_pos_inf_witness :
    c_sum 64 3 [ofBits true 0x7FEFFFFFFFFFFFFF, .inf false, ofBits true 0x3FF0000000000000] =
      .ok (.inf false) :=
  c_sum_pos_inf 64 3 [ofBits true 0x7FEFFFFFFFFFFFFF, .inf false, ofBits true 0x3FF0000000000000]
    (by decide) (by decide) (by decide) (by decide) (by decide)
    (fun k hk => by
      have hcases : k = 0 ∨ k = 1 ∨ k = 2 ∨ k = 3 := by omega
      rcases hcases with h | h | h | h <;> subst h <;> decide!)

/-! ## C7 -/

/-- C7: for every `n` and `X` holding `n` doubles, if `+inf` and `-inf` both occur
among the first `n` elements (anywhere, in either order) then `c_sum(n, X)` returns
NaN. -/
theorem c_sum_inf_both (w n : Nat) (X : List Double) (hn : n < 2 ^ w) (hX : n ≤ X.length)
    (hp : Double.inf false ∈ X.take n) (hm : Double.inf true ∈ X.take n) :
    ∃ r, c_sum w n X = .ok r ∧ r.isNaN = true := by
  refine ⟨.nan, ?_, rfl⟩
  rw [c_sum_val w n X hn hX]
  congr 1
  rcases foldl_add_of_inf_mem false _ posZero hp with h1 | h1
  · rcases foldl_add_of_inf_mem true _ posZero hm with h2 | h2
    · rw [h1] at h2; exact absurd h2 (by decide)
    · exact h2
  · exact h1

theorem c_sum_inf_both_witness :
    ∃ r, c_sum 64 3 [.inf true, ofBits false 0x3FF0000000000000, .inf false] = .ok r ∧
      r.isNaN = true :=
  c_sum_inf_both 64 3 [.inf true, ofBits false 0x3FF0000000000000, .inf false]
    (by decide) (by decide) (by decide) (by decide)

/-! ## C8 -/

/-- C8: `c_sum` is a function of the count and of the first `n` elements only: two
calls with the same `n` on arrays whose first `n` elements are identical return
identical results (also the same fault, if any); nothing else enters the result. -/
theorem c_sum_deterministic (w n : Nat) (X Y : List Double) (h : X.take n = Y.take n) :
    c_sum w n X = c_sum w n Y := by
  unfold c_sum c_sum_exec
  exact c_sum_loop_congr w n (n + 1) _ _ rfl rfl h

theorem c_sum_deterministic_witness :
    c_sum 64 2 [ofBits false 0x3FF0000000000000, .nan, .inf true] =
      c_sum 64 2 [ofBits false 0x3FF0000000000000, .nan, negZero, posZero] :=
  c_sum_deterministic 64 2 _ _ (by decide)

/-! ## C9 -/

/-- C9: for every `n` (a `size_t` value) and `X` holding `n` doubles, `c_sum(n, X)`
returns, and in the frame it returns from the array is the array it was called
with: every element of `X` holds the value it held before the call. -/
theorem c_sum_preserves_input (w n : Nat) (X : List Double) (hn : n < 2 ^ w)
    (hX : n ≤ X.length) :
    ∃ st, c_sum_exec w n X = .ok st ∧ st.X = X ∧ ∀ j : Nat, st.X[j]? = X[j]? := by
  refine ⟨_, c_sum_ok w n X hn hX, rfl, fun _ => rfl⟩

theorem c_sum_preserves_input_witness :
    ∃ st, c_sum_exec 64 2 [ofBits false 0x3FF0000000000000, .nan, .inf true] = .ok st ∧
      st.X = [ofBits false 0x3FF0000000000000, .nan, .inf true] ∧
      ∀ j : Nat, st.X[j]? = [ofBits false 0x3FF0000000000000, Double.nan, .inf true][j]? :=
  c_sum_preserves_input 64 2 [ofBits false 0x3FF0000000000000, .nan, .inf true]
    (by decide) (by decide)

/-! ## C10 -/

/-- C10: on a platform whose `size_t` has at least 16 bits, `main` builds the array
`{1, 2, 3, 4, 5}` with `n = 5`, `c_sum(5, {1, 2, 3, 4, 5})` returns exactly `15.0`,
and the program writes the single line `C-computed Sum = 15.00` and a newline to
standard output (and exits with status 0). -/
theorem main_output (w : Nat) (hw : 16 ≤ w) :
    c_sum w 5 [ofInt 1, ofInt 2, ofInt 3, ofInt 4, ofInt 5] =
        .ok (ofBits false 0x402E000000000000) ∧
      ofBits false 0x402E000000000000 = ofInt 15 ∧
      main w = .ok { stdout := "C-computed Sum = 15.00\n", status := 0 } := by
  have h5 : 5 < 2 ^ w :=
    Nat.lt_of_lt_of_le (by decide : 5 < 2 ^ 16) (Nat.pow_le_pow_right (by decide) hw)
  have hsum : c_sum w 5 [ofInt 1, ofInt 2, ofInt 3, ofInt 4, ofInt 5] =
      .ok (ofBits false 0x402E000000000000) := by
    rw [c_sum_val w 5 _ h5 (by decide)]
    decide!
  refine ⟨hsum, by decide!, ?_⟩
  have hn : ([ofInt 1, ofInt 2, ofInt 3, ofInt 4, ofInt 5].length * 8 / 8) % 2 ^ w = 5 :=
    Nat.mod_eq_of_lt h5
  unfold main
  simp only [hn, hsum]
  decide!

theorem main_output_witness :
    c_sum 64 5 [ofInt 1, ofInt 2, ofInt 3, ofInt 4, ofInt 5] =
        .ok (ofBits false 0x402E000000000000) ∧
      ofBits false 0x402E000000000000 = ofInt 15 ∧
      main 64 = .ok { stdout := "C-computed Sum = 15.00\n", status := 0 } :=
  main_output 64 (by decide)

/-! ## C11 -/

/-- C11: for the array of 10,000 copies of `1.0` (on a platform whose `size_t` has at
least 16 bits), `c_sum(10000, X)` returns exactly `10000.0`; every running sum
`k = 0, ..., 10000` is the double `k` itself, with the exact value `k`, so no
addition rounds. -/
theorem c_sum_ten_thousand_ones (w : Nat) (hw : 16 ≤ w) :
    c_sum w 10000 (List.replicate 10000 (ofBits false 0x3FF0000000000000)) =
        .ok (ofBits false 0x40C3880000000000) ∧
      ofBits false 0x40C3880000000000 = ofInt 10000 ∧
      ∀ k : Nat, k ≤ 10000 →
        List.foldl Double.add posZero
            ((List.replicate 10000 (ofBits false 0x3FF0000000000000)).take k) = ofInt (k : Int) ∧
          (ofInt (k : Int)).val? = some ((k : Int) * 2 ^ unitExp) := by
  have hn : 10000 < 2 ^ w :=
    Nat.lt_of_lt_of_le (by decide : 10000 < 2 ^ 16) (Nat.pow_le_pow_right (by decide) hw)
  have hone : ofBits false 0x3FF0000000000000 = ofInt 1 := by decide!
  have hres : ofBits false 0x40C3880000000000 = ofInt 10000 := by decide!
  have hpre : ∀ k : Nat, k ≤ 10000 →
      List.foldl Double.add posZero ((List.replicate 10000 (ofInt 1)).take k) =
        ofInt (k : Int) := by
    intro k hk
    rw [List.take_replicate, Nat.min_eq_left hk]
    exact foldl_add_replicate_one k (by omega)
  refine ⟨?_, hres, fun k hk => ⟨?_, ?_⟩⟩
  · rw [c_sum_val w 10000 _ hn (Nat.le_of_eq (List.length_replicate 10000 _).symm), hone, hres,
      hpre 10000 (Nat.le_refl _)]
    rfl
  · rw [hone]; exact hpre k hk
  · rw [ofInt_eq_ofExact]
    exact val_ofExact _ (representable_int (k : Int) (by simpa using (by omega : k ≤ 2 ^ 53)))

theorem c_sum_ten_thousand_ones_witness :
    c_sum 64 10000 (List.replicate 10000 (ofBits false 0x3FF0000000000000)) =
        .ok (ofBits false 0x40C3880000000000) ∧
      ofBits false 0x40C3880000000000 = ofInt 10000 ∧
      ∀ k : Nat, k ≤ 10000 →
        List.foldl Double.add posZero
            ((List.replicate 10000 (ofBits false 0x3FF0000000000000)).take k) = ofInt (k : Int) ∧
          (ofInt (k : Int)).val? = some ((k : Int) * 2 ^ unitExp) :=
  c_sum_ten_thousand_ones 64 (by decide)

/-! ## C12 -/

/-- C12: the result is order-sensitive when rounding occurs. On `[0.1, 0.2, 0.3]`,
whose first addition already rounds, `c_sum` returns `0.6000000000000001`; on the
permutation `[0.3, 0.2, 0.1]` it returns `0.6`. -/
theorem c_sum_order_sensitive :
    List.Perm
        [ofBits false 0x3FD3333333333333, ofBits false 0x3FC999999999999A,
          ofBits false 0x3FB999999999999A]
        [ofBits false 0x3FB999999999999A, ofBits false 0x3FC999999999999A,
          ofBits false 0x3FD3333333333333] ∧
      stepsExact posZero
        [ofBits false 0x3FB999999999999A, ofBits false 0x3FC999999999999A,
          ofBits false 0x3FD3333333333333] = false ∧
      c_sum 64 3
        [ofBits false 0x3FB999999999999A, ofBits false 0x3FC999999999999A,
          ofBits false 0x3FD3333333333333] = .ok (ofBits false 0x3FE3333333333334) ∧
      c_sum 64 3
        [ofBits false 0x3FD3333333333333, ofBits false 0x3FC999999999999A,
          ofBits false 0x3FB999999999999A] = .ok (ofBits false 0x3FE3333333333333) ∧
      ofBits false 0x3FE3333333333334 ≠ ofBits false 0x3FE3333333333333 := by
  decide!

/-! ## C13 -/

/-- C13: for every width of `size_t`, `main` terminates with status `0`, and it does
so after the call of `c_sum` has returned a value `r` and the line
`C-computed Sum = <r as %.2f>` has been written; no run of `main` ends with another
status. -/
theorem main_status (w : Nat) :
    (∃ out r, main w = .ok out ∧ out.status = 0 ∧
        c_sum w (5 % 2 ^ w) [ofInt 1, ofInt 2, ofInt 3, ofInt 4, ofInt 5] = .ok r ∧
        out.stdout = "C-computed Sum = " ++ fmt2f r ++ "\n") ∧
      ∀ out, main w = .ok out → out.status = 0 := by
  have hlt : 5 % 2 ^ w < 2 ^ w := Nat.mod_lt _ (Nat.two_pow_pos w)
  have hle : 5 % 2 ^ w ≤ [ofInt 1, ofInt 2, ofInt 3, ofInt 4, ofInt 5].length :=
    Nat.mod_le 5 _
  have hval := c_sum_val w (5 % 2 ^ w) [ofInt 1, ofInt 2, ofInt 3, ofInt 4, ofInt 5] hlt hle
  have hmain : main w = .ok
      { stdout := "C-computed Sum = " ++ fmt2f (List.foldl Double.add posZero
          ([ofInt 1, ofInt 2, ofInt 3, ofInt 4, ofInt 5].take (5 % 2 ^ w))) ++ "\n",
        status := 0 } := by
    unfold main
    have hn : ([ofInt 1, ofInt 2, ofInt 3, ofInt 4, ofInt 5].length * 8 / 8) % 2 ^ w =
        5 % 2 ^ w := rfl
    simp only [hn, hval]
  refine ⟨⟨_, _, hmain, rfl, hval, rfl⟩, fun out hout => ?_⟩
  rw [hmain] at hout
  rw [← Except.ok.inj hout]

/-! ## C14 -/

/-- C14: for every count `n` that is a `size_t` value (also the largest, `2 ^ w - 1`),
on an array of `n` elements the loop ends after exactly `n` iterations: `n + 1`
evaluations of the test `i < n` suffice and `n` do not; the body has run for
`i = 0, 1, ..., n-1` in this order, and the index ends at `n` itself, so it has not
wrapped around modulo `2 ^ w`. -/
theorem c_sum_terminates (w n : Nat) (X : List Double) (hn : n < 2 ^ w) (hX : n ≤ X.length) :
    (∀ fuel : Nat, n < fuel →
        ∃ st, c_sum_loop w n fuel { X := X, i := 0, s := posZero, reads := [] } = .ok st ∧
          st.i = n ∧ st.reads = List.range n ∧ st.reads.length = n ∧ st.i < 2 ^ w) ∧
      (∀ fuel : Nat, fuel ≤ n →
        c_sum_loop w n fuel { X := X, i := 0, s := posZero, reads := [] } =
          .error .outOfFuel) := by
  constructor
  · intro fuel hf
    refine ⟨_, c_sum_loop_spec w n hn fuel _ (Nat.zero_le _) hX (by simpa using hf), rfl, ?_, ?_,
      hn⟩
    · simp [List.range_eq_range']
    · simp
  · intro fuel hf
    exact c_sum_loop_outOfFuel w n hn fuel _ (Nat.zero_le _) hX (by simpa using hf)

theorem c_sum_terminates_witness :
    (∀ fuel : Nat, 3 < fuel →
        ∃ st, c_sum_loop 2 3 fuel
            { X := [ofInt 1, .nan, .inf true], i := 0, s := posZero, reads := [] } = .ok st ∧
          st.i = 3 ∧ st.reads = List.range 3 ∧ st.reads.length = 3 ∧ st.i < 2 ^ 2) ∧
      (∀ fuel : Nat, fuel ≤ 3 →
        c_sum_loop 2 3 fuel
            { X := [ofInt 1, .nan, .inf true], i := 0, s := posZero, reads := [] } =
          .error .outOfFuel) :=
  c_sum_terminates 2 3 [ofInt 1, .nan, .inf true] (by decide) (by decide)

/-! ## C15 -/

/-- C15: when `X` holds at least `n` elements (`n` a `size_t` value), every access
`X[i]` of `c_sum(n, X)` has `i < n` and lies inside the array; the out-of-bounds
fault is reached by no run of the loop, whatever the fuel, and `c_sum` returns a
value. -/
theorem c_sum_in_bounds (w n : Nat) (X : List Double) (hn : n < 2 ^ w) (hX : n ≤ X.length) :
    (∀ fuel : Nat, c_sum_loop w n fuel { X := X, i := 0, s := posZero, reads := [] } ≠
        .error .outOfBounds) ∧
      (∃ r, c_sum w n X = .ok r) ∧
      ∃ st, c_sum_exec w n X = .ok st ∧
        ∀ j ∈ st.reads, j < n ∧ j < X.length ∧ ∃ x, X[j]? = some x := by
  refine ⟨fun fuel => c_sum_loop_inBounds w n fuel _ hX, ⟨_, c_sum_val w n X hn hX⟩,
    _, c_sum_ok w n X hn hX, ?_⟩
  intro j hj
  have hjn : j < n := by
    simp only [List.mem_range'_1] at hj
    omega
  have hjl : j < X.length := by omega
  exact ⟨hjn, hjl, X[j], List.getElem?_eq_getElem hjl⟩

theorem c_sum_in_bounds_witness :
    (∀ fuel : Nat, c_sum_loop 64 2 fuel
        { X := [ofInt 1, .nan, .inf true], i := 0, s := posZero, reads := [] } ≠
        .error .outOfBounds) ∧
      (∃ r, c_sum 64 2 [ofInt 1, .nan, .inf true] = .ok r) ∧
      ∃ st, c_sum_exec 64 2 [ofInt 1, .nan, .inf true] = .ok st ∧
        ∀ j ∈ st.reads, j < 2 ∧ j < [ofInt 1, Double.nan, .inf true].length ∧
          ∃ x, [ofInt 1, Double.nan, .inf true][j]? = some x :=
  c_sum_in_bounds 64 2 [ofInt 1, .nan, .inf true] (by decide) (by decide)

/-! ## C16 -/

/-- C16: one more element is one more addition on the right: when `n + 1` is a
`size_t` value and `X` holds `n + 1` elements, `c_sum(n+1, X) = c_sum(n, X) + X[n]`;
and the sum of a concatenation `xs ++ ys` is the fold of `ys` started from the
accumulator value `c_sum(xs)`. -/
theorem c_sum_extend (w n : Nat) (X xs ys : List Double) (hn : n + 1 < 2 ^ w)
    (hX : n + 1 ≤ X.length) (hlen : (xs ++ ys).length < 2 ^ w) :
    (∃ a x, c_sum w n X = .ok a ∧ X[n]? = some x ∧ c_sum w (n + 1) X = .ok (a.add x)) ∧
      ∃ a, c_sum w xs.length xs = .ok a ∧
        c_sum w (xs ++ ys).length (xs ++ ys) = .ok (List.foldl Double.add a ys) := by
  have hlt : n < X.length := by omega
  constructor
  · refine ⟨_, X[n], c_sum_val w n X (by omega) (by omega), List.getElem?_eq_getElem hlt, ?_⟩
    rw [c_sum_val w (n + 1) X hn hX, List.take_succ, List.foldl_append,
      List.getElem?_eq_getElem hlt]
    rfl
  · have hxs : xs.length < 2 ^ w := by
      rw [List.length_append] at hlen
      omega
    refine ⟨_, c_sum_val w xs.length xs hxs (Nat.le_refl _), ?_⟩
    rw [c_sum_val w _ _ hlen (Nat.le_refl _), List.take_length, List.take_length,
      List.foldl_append]

theorem c_sum_extend_witness :
    (∃ a x, c_sum 64 2 [ofInt 1, ofInt 2, ofInt 3] = .ok a ∧
        [ofInt 1, ofInt 2, ofInt 3][2]? = some x ∧
        c_sum 64 (2 + 1) [ofInt 1, ofInt 2, ofInt 3] = .ok (a.add x)) ∧
      ∃ a, c_sum 64 [ofInt 1, Double.nan].length [ofInt 1, .nan] = .ok a ∧
        c_sum 64 ([ofInt 1, Double.nan] ++ [Double.inf true]).length
            ([ofInt 1, .nan] ++ [.inf true]) =
          .ok (List.foldl Double.add a [.inf true]) :=
  c_sum_extend 64 2 [ofInt 1, ofInt 2, ofInt 3] [ofInt 1, .nan] [.inf true]
    (by decide) (by decide) (by decide)

/-! ## C17 -/

/-- C17: `c_sum(n, X)` depends on the first `n` elements only: for arrays `X` and `Y`,
of any lengths at least `n`, that agree at the indices `0 .. n-1`, the calls
`c_sum(n, X)` and `c_sum(n, Y)` return the same value, and both read exactly the
indices `0 .. n-1`: no element at index `n` or beyond is read. -/
theorem c_sum_prefix_only (w n : Nat) (X Y : List Double) (hn : n < 2 ^ w)
    (hX : n ≤ X.length) (hY : n ≤ Y.length) (hagree : ∀ i : Nat, i < n → X[i]? = Y[i]?) :
    (∃ r, c_sum w n X = .ok r ∧ c_sum w n Y = .ok r) ∧
      ∃ sx sy, c_sum_exec w n X = .ok sx ∧ c_sum_exec w n Y = .ok sy ∧
        sx.reads = sy.reads ∧ ∀ j ∈ sx.reads, j < n := by
  have htake : X.take n = Y.take n := by
    apply List.ext_getElem?
    intro i
    by_cases hi : i < n
    · rw [List.getElem?_take_of_lt hi, List.getElem?_take_of_lt hi]
      exact hagree i hi
    · rw [List.getElem?_eq_none (by rw [List.length_take]; omega),
        List.getElem?_eq_none (by rw [List.length_take]; omega)]
  refine ⟨⟨_, c_sum_val w n X hn hX, ?_⟩, _, _, c_sum_ok w n X hn hX, c_sum_ok w n Y hn hY,
    rfl, ?_⟩
  · rw [c_sum_val w n Y hn hY, htake]
  · intro j hj
    simp only [List.mem_range'_1] at hj
    omega

theorem c_sum_prefix_only_witness :
    (∃ r, c_sum 64 2 [ofInt 1, ofInt 2, .nan] = .ok r ∧
        c_sum 64 2 [ofInt 1, ofInt 2, .inf true, negZero] = .ok r) ∧
      ∃ sx sy, c_sum_exec 64 2 [ofInt 1, ofInt 2, .nan] = .ok sx ∧
        c_sum_exec 64 2 [ofInt 1, ofInt 2, .inf true, negZero] = .ok sy ∧
        sx.reads = sy.reads ∧ ∀ j ∈ sx.reads, j < 2 :=
  c_sum_prefix_only 64 2 [ofInt 1, ofInt 2, .nan] [ofInt 1, ofInt 2, .inf true, negZero]
    (by decide) (by decide) (by decide)
    (fun i hi => by
      have hcases : i = 0 ∨ i = 1 := by omega
      rcases hcases with h | h <;> subst h <;> rfl)

end CSum
